import Mathlib

/-!
# Verification of the configuration enumerator in `ci_combi.py`

A shallow embedding of the `ConfigurationGenerator` class: Python integers
become `Int`/`Nat`, `itertools.combinations(range(n), r)` becomes
`List.sublistsLen r (List.range n)` guarded by the `ValueError` it raises on a
negative `r` (modelled with `Except`), the mutable list of occupation symbols
becomes a `List Char` updated with `List.set`, and the accumulating Python
`set` becomes a duplicate-free `List String` grown by insert-if-absent.
-/

set_option autoImplicit false

namespace CiCombi

/-- `itertools.combinations(range(n), r)` for a non-negative `r`: all
strictly-increasing `r`-element selections from `0, …, n-1`. -/
def combinations (n r : Nat) : List (List Nat) :=
  List.sublistsLen r (List.range n)

/-- `itertools.combinations(range(n), r)` with a Python `int` argument `r`:
raises `ValueError` when `r` is negative. -/
def combinationsI (n : Nat) (r : Int) : Except String (List (List Nat)) :=
  if r < 0 then Except.error "r must be non-negative"
  else Except.ok (combinations n r.toNat)

/-- The fields stored on a `ConfigurationGenerator` instance by `__init__`. -/
structure ConfigurationGenerator where
  total_electrons : Int
  active_electrons : Int
  frozen_core : Int
  irrep_specs : List (String × Nat)
  n_orbitals : Nat
  irrep_positions : List (Nat × Nat)

/-- The loop in `__init__` computing `irrep_positions`: running pairs
`(pos, pos + count)` over the irrep counts. -/
def irrepPositionsAux : Nat → List (String × Nat) → List (Nat × Nat)
  | _, [] => []
  | pos, (_, count) :: rest => (pos, pos + count) :: irrepPositionsAux (pos + count) rest

/-- `ConfigurationGenerator.__init__`. -/
def ConfigurationGenerator.init (total_electrons frozen_core : Int)
    (irrep_specs : List (String × Nat)) : ConfigurationGenerator where
  total_electrons := total_electrons
  active_electrons := total_electrons - frozen_core
  frozen_core := frozen_core
  irrep_specs := irrep_specs
  n_orbitals := (irrep_specs.map Prod.snd).sum
  irrep_positions := irrepPositionsAux 0 irrep_specs

/-- The local `n_alpha = self.active_electrons // 2` of
`_generate_spin_distributions` (Python `//` is floor division). -/
def ConfigurationGenerator.n_alpha (g : ConfigurationGenerator) : Int :=
  g.active_electrons.fdiv 2

/-- The local `n_beta = self.active_electrons - n_alpha`. -/
def ConfigurationGenerator.n_beta (g : ConfigurationGenerator) : Int :=
  g.active_electrons - g.n_alpha

/-- `str.join`: the Python `' '.join(parts)` at the level of character lists. -/
def joinSpace : List (List Char) → List Char
  | [] => []
  | part :: rest =>
    match rest with
    | [] => part
    | _ :: _ => part ++ ' ' :: joinSpace rest

/-- `_format_configuration`: slice the symbol list at each stored
`(start, end)` pair and join the groups with single spaces. -/
def ConfigurationGenerator.format_configuration (g : ConfigurationGenerator)
    (distribution : List Char) : String :=
  ⟨joinSpace (g.irrep_positions.map fun se => (distribution.drop se.1).take (se.2 - se.1))⟩

/-- The `for pos in alpha_pos: dist[pos] = 'a'` loop. -/
def placeAlpha : List Char → List Nat → List Char
  | dist, [] => dist
  | dist, pos :: rest => placeAlpha (dist.set pos 'a') rest

/-- The beta loop: `'0'` becomes `'b'`, `'a'` becomes `'2'`, and anything else
sets `valid_config = False` and breaks; `none` models the discarded candidate. -/
def placeBeta : List Char → List Nat → Option (List Char)
  | dist, [] => some dist
  | dist, pos :: rest =>
    match dist[pos]? with
    | some c =>
      if c = '0' then placeBeta (dist.set pos 'b') rest
      else if c = 'a' then placeBeta (dist.set pos '2') rest
      else none
    | none => none

/-- One candidate `(alpha_pos, beta_pos)` pair: start from `['0'] * n_orbitals`,
place the alpha electrons, then overlay the beta electrons. -/
def buildDist (n : Nat) (alphaPos betaPos : List Nat) : Option (List Char) :=
  placeBeta (placeAlpha (List.replicate n '0') alphaPos) betaPos

/-- `set.add`: the accumulating result is a duplicate-free list. -/
def setInsert (s : List String) (x : String) : List String :=
  if x ∈ s then s else s ++ [x]

/-- The inner `for beta_pos in combinations(...)` loop body over a fixed
alpha placement. -/
def innerLoop (g : ConfigurationGenerator) (alphaPos : List Nat) :
    List (List Nat) → List String → List String
  | [], acc => acc
  | betaPos :: rest, acc =>
    match buildDist g.n_orbitals alphaPos betaPos with
    | some dist => innerLoop g alphaPos rest (setInsert acc (g.format_configuration dist))
    | none => innerLoop g alphaPos rest acc

/-- The outer `for alpha_pos in combinations(...)` loop; the inner
`combinations(range(self.n_orbitals), n_beta)` is evaluated once per
iteration and may raise. -/
def outerLoop (g : ConfigurationGenerator) :
    List (List Nat) → List String → Except String (List String)
  | [], acc => Except.ok acc
  | alphaPos :: rest, acc => do
    let betaCombos ← combinationsI g.n_orbitals g.n_beta
    outerLoop g rest (innerLoop g alphaPos betaCombos acc)

/-- `_generate_spin_distributions`. -/
def ConfigurationGenerator.generate_spin_distributions (g : ConfigurationGenerator) :
    Except String (List String) := do
  let alphaCombos ← combinationsI g.n_orbitals g.n_alpha
  outerLoop g alphaCombos []

/-- `generate_configurations`. -/
def ConfigurationGenerator.generate_configurations (g : ConfigurationGenerator) :
    Except String (List String) :=
  g.generate_spin_distributions

/-- State-passing embedding of a `generator.generate_configurations()` method
call: the body only reads `self`'s fields and assigns none of them, so the
post-state of the instance is the unchanged pre-state. -/
def ConfigurationGenerator.generate_configurations_call (g : ConfigurationGenerator) :
    Except String (List String) × ConfigurationGenerator :=
  (g.generate_spin_distributions, g)

/-! ## Specification-side vocabulary -/

/-- The occupation induced by an alpha placement `A` and a beta placement `B`:
`'2'` where both sit, `'a'` where only alpha, `'b'` where only beta, `'0'`
elsewhere. -/
def occOf (n : Nat) (A B : List Nat) : List Char :=
  (List.range n).map fun i =>
    if i ∈ A then (if i ∈ B then '2' else 'a')
    else (if i ∈ B then 'b' else '0')

/-- Symbols carrying an alpha electron. -/
def alphaSym (c : Char) : Bool := c == 'a' || c == '2'

/-- Symbols carrying a beta electron. -/
def betaSym (c : Char) : Bool := c == 'b' || c == '2'

/-- Electron weight of one occupation symbol. -/
def charWeight (c : Char) : Nat :=
  if c = '2' then 2 else if c = 'a' ∨ c = 'b' then 1 else 0

/-- Total electron weight of a list of symbols. -/
def listWeight (l : List Char) : Nat :=
  (l.map charWeight).sum

/-- Total electron weight of a configuration string. -/
def stringWeight (s : String) : Nat :=
  listWeight s.data

/-- Chop a symbol list into consecutive groups of the given sizes. -/
def chunksBy : List Nat → List Char → List (List Char)
  | [], _ => []
  | c :: cs, d => d.take c :: chunksBy cs (d.drop c)

end CiCombi

namespace CiCombi

/-! ## Arithmetic of the spin split -/

theorem n_alpha_eq_ediv (g : ConfigurationGenerator) :
    g.n_alpha = g.active_electrons / 2 :=
  Int.fdiv_eq_ediv _ (by norm_num)

theorem n_beta_eq (g : ConfigurationGenerator) :
    g.n_beta = g.active_electrons - g.active_electrons / 2 := by
  rw [ConfigurationGenerator.n_beta, n_alpha_eq_ediv]

theorem n_beta_nonneg_of_n_alpha (g : ConfigurationGenerator)
    (h : 0 ≤ g.n_alpha) : 0 ≤ g.n_beta := by
  rw [n_alpha_eq_ediv] at h
  rw [n_beta_eq]
  omega

/-! ## The alpha placement loop -/

theorem placeAlpha_length (A : List Nat) (dist : List Char) :
    (placeAlpha dist A).length = dist.length := by
  induction A generalizing dist with
  | nil => rfl
  | cons p rest ih => rw [placeAlpha, ih, List.length_set]

theorem placeAlpha_getElem? (A : List Nat) (dist : List Char) (i : Nat) :
    (placeAlpha dist A)[i]? = if i ∈ A ∧ i < dist.length then some 'a' else dist[i]? := by
  induction A generalizing dist with
  | nil => simp [placeAlpha]
  | cons p rest ih =>
    rw [placeAlpha, ih, List.length_set, List.getElem?_set]
    simp only [List.mem_cons]
    rcases Decidable.em (i ∈ rest) with h1 | h1 <;>
      rcases Decidable.em (i < dist.length) with h2 | h2 <;>
      rcases Decidable.em (p = i) with h3 | h3 <;>
      simp [h1, h2, h3]
    · omega
    · rw [if_neg fun h => h3 h.symm]
    · omega

end CiCombi

namespace CiCombi

/-! ## The beta overlay loop -/

theorem placeBeta_sound :
    ∀ (B : List Nat) (dist : List Char), B.Nodup →
      (∀ b ∈ B, b < dist.length) →
      (∀ b ∈ B, dist[b]? = some '0' ∨ dist[b]? = some 'a') →
      ∃ d, placeBeta dist B = some d ∧ d.length = dist.length ∧
        ∀ i : Nat, d[i]? =
          if i ∈ B then (if dist[i]? = some 'a' then some '2' else some 'b')
          else dist[i]?
  | [], dist, _, _, _ => ⟨dist, rfl, rfl, fun i => by simp [placeBeta]⟩
  | b :: rest, dist, hnd, hlt, hch => by
    obtain ⟨hbrest, hndr⟩ := List.nodup_cons.mp hnd
    have hblen : b < dist.length := hlt b (List.mem_cons_self b rest)
    have hltr : ∀ p ∈ rest, p < dist.length := fun p hp => hlt p (List.mem_cons_of_mem b hp)
    rcases hch b (List.mem_cons_self b rest) with hb | hb
    · have hstep : placeBeta dist (b :: rest) = placeBeta (dist.set b 'b') rest := by
        rw [placeBeta, hb]
        simp
      have hget' : ∀ j : Nat, (dist.set b 'b')[j]? = if b = j then some 'b' else dist[j]? := by
        intro j
        simp [List.getElem?_set, hblen]
      obtain ⟨d, hd, hdl, hdi⟩ :=
        placeBeta_sound rest (dist.set b 'b') hndr
          (fun p hp => by rw [List.length_set]; exact hltr p hp)
          (fun p hp => by
            rw [hget' p, if_neg (fun h : b = p => hbrest (h ▸ hp))]
            exact hch p (List.mem_cons_of_mem b hp))
      refine ⟨d, hstep ▸ hd, by rw [hdl, List.length_set], fun i => ?_⟩
      rw [hdi i]
      by_cases hib : i = b
      · subst hib
        simp [hbrest, hget', hb]
      · have hbne : ¬ b = i := fun h => hib h.symm
        by_cases hir : i ∈ rest
        · simp [hir, hget', hbne, List.mem_cons]
        · simp [hir, hib, hget', hbne, List.mem_cons]
    · have hstep : placeBeta dist (b :: rest) = placeBeta (dist.set b '2') rest := by
        rw [placeBeta, hb]
        simp
      have hget' : ∀ j : Nat, (dist.set b '2')[j]? = if b = j then some '2' else dist[j]? := by
        intro j
        simp [List.getElem?_set, hblen]
      obtain ⟨d, hd, hdl, hdi⟩ :=
        placeBeta_sound rest (dist.set b '2') hndr
          (fun p hp => by rw [List.length_set]; exact hltr p hp)
          (fun p hp => by
            rw [hget' p, if_neg (fun h : b = p => hbrest (h ▸ hp))]
            exact hch p (List.mem_cons_of_mem b hp))
      refine ⟨d, hstep ▸ hd, by rw [hdl, List.length_set], fun i => ?_⟩
      rw [hdi i]
      by_cases hib : i = b
      · subst hib
        simp [hbrest, hget', hb]
      · have hbne : ¬ b = i := fun h => hib h.symm
        by_cases hir : i ∈ rest
        · simp [hir, hget', hbne, List.mem_cons]
        · simp [hir, hib, hget', hbne, List.mem_cons]

end CiCombi

namespace CiCombi

/-! ## The induced occupation -/

theorem occOf_length (n : Nat) (A B : List Nat) : (occOf n A B).length = n := by
  simp [occOf]

theorem occOf_getElem? (n : Nat) (A B : List Nat) (i : Nat) :
    (occOf n A B)[i]? =
      if i < n then
        some (if i ∈ A then (if i ∈ B then '2' else 'a')
              else (if i ∈ B then 'b' else '0'))
      else none := by
  rw [occOf, List.getElem?_map]
  by_cases h : i < n
  · rw [List.getElem?_range h, if_pos h, Option.map_some']
  · rw [@List.getElem?_eq_none _ (List.range n) i (by simpa [List.length_range] using h),
      if_neg h, Option.map_none']

theorem occOf_congr (n : Nat) {A A' B B' : List Nat}
    (hA : ∀ i, i < n → (i ∈ A ↔ i ∈ A')) (hB : ∀ i, i < n → (i ∈ B ↔ i ∈ B')) :
    occOf n A B = occOf n A' B' := by
  rw [occOf, occOf]
  refine List.map_congr_left fun i hi => ?_
  rw [List.mem_range] at hi
  rw [if_congr (hA i hi) (if_congr (hB i hi) rfl rfl) (if_congr (hB i hi) rfl rfl)]

theorem occOf_mem_alphabet (n : Nat) (A B : List Nat) :
    ∀ c ∈ occOf n A B, c = '0' ∨ c = 'a' ∨ c = 'b' ∨ c = '2' := by
  intro c hc
  rw [occOf, List.mem_map] at hc
  obtain ⟨i, _, hi⟩ := hc
  by_cases hA : i ∈ A <;> by_cases hB : i ∈ B <;> simp [hA, hB] at hi <;> simp [← hi]

/-- The imperative placement built from a pair of valid combinations is
exactly the declarative occupation. -/
theorem buildDist_eq_occOf (n : Nat) (A B : List Nat) (hBnd : B.Nodup)
    (hBlt : ∀ b ∈ B, b < n) : buildDist n A B = some (occOf n A B) := by
  have hlen : (placeAlpha (List.replicate n '0') A).length = n := by
    rw [placeAlpha_length, List.length_replicate]
  have hget : ∀ i : Nat, (placeAlpha (List.replicate n '0') A)[i]? =
      if i < n then some (if i ∈ A then 'a' else '0') else none := by
    intro i
    rw [placeAlpha_getElem?, List.length_replicate, List.getElem?_replicate]
    by_cases h1 : i ∈ A <;> by_cases h2 : i < n <;> simp [h1, h2]
  obtain ⟨d, hd, _, hdi⟩ :=
    placeBeta_sound B (placeAlpha (List.replicate n '0') A) hBnd
      (fun b hb => by rw [hlen]; exact hBlt b hb)
      (fun b hb => by
        rw [hget b, if_pos (hBlt b hb)]
        by_cases h1 : b ∈ A <;> simp [h1])
  rw [buildDist, hd]
  congr 1
  refine List.ext_getElem? fun i => ?_
  rw [hdi i, hget i, occOf_getElem? n A B i]
  by_cases h2 : i < n
  · by_cases hA : i ∈ A <;> by_cases hB : i ∈ B <;> simp [hA, hB, h2]
  · have hB : i ∉ B := fun hb => h2 (hBlt i hb)
    simp [hB, h2]

end CiCombi

namespace CiCombi

/-! ## Combinations -/

theorem mem_combinations {n r : Nat} {A : List Nat} :
    A ∈ combinations n r ↔ A.Sublist (List.range n) ∧ A.length = r := by
  rw [combinations, List.mem_sublistsLen]

theorem mem_combinations_nodup {n r : Nat} {A : List Nat}
    (h : A ∈ combinations n r) : A.Nodup :=
  (mem_combinations.mp h).1.nodup (List.nodup_range n)

theorem mem_combinations_lt {n r : Nat} {A : List Nat}
    (h : A ∈ combinations n r) : ∀ a ∈ A, a < n := fun a ha =>
  List.mem_range.mp ((mem_combinations.mp h).1.subset ha)

theorem mem_combinations_length {n r : Nat} {A : List Nat}
    (h : A ∈ combinations n r) : A.length = r :=
  (mem_combinations.mp h).2

theorem combinations_eq_nil {n r : Nat} (h : n < r) : combinations n r = [] := by
  rw [combinations]
  exact List.sublistsLen_of_length_lt (by rwa [List.length_range])

theorem combinations_zero (n : Nat) : combinations n 0 = [[]] :=
  List.sublistsLen_zero _

/-! ## Counting members of a placement inside `range n` -/

theorem countP_range_mem (n : Nat) (A : List Nat) (hA : A.Nodup)
    (hlt : ∀ a ∈ A, a < n) :
    (List.range n).countP (fun i => decide (i ∈ A)) = A.length := by
  rw [List.countP_eq_length_filter]
  have hnd : ((List.range n).filter fun i => decide (i ∈ A)).Nodup :=
    (List.filter_sublist _).nodup (List.nodup_range n)
  have hfs : ((List.range n).filter fun i => decide (i ∈ A)).toFinset = A.toFinset := by
    ext x
    simp only [List.mem_toFinset, List.mem_filter, List.mem_range, decide_eq_true_eq]
    exact ⟨fun h => h.2, fun h => ⟨hlt x h, h⟩⟩
  rw [← List.toFinset_card_of_nodup hnd, hfs, List.toFinset_card_of_nodup hA]

theorem countP_alphaSym_occOf (n : Nat) (A B : List Nat) (hA : A.Nodup)
    (hAlt : ∀ a ∈ A, a < n) :
    (occOf n A B).countP alphaSym = A.length := by
  rw [occOf, List.countP_map, ← countP_range_mem n A hA hAlt]
  refine List.countP_congr fun i _ => ?_
  by_cases h1 : i ∈ A <;> by_cases h2 : i ∈ B <;>
    simp [h1, h2, alphaSym, Function.comp]

theorem countP_betaSym_occOf (n : Nat) (A B : List Nat) (hB : B.Nodup)
    (hBlt : ∀ b ∈ B, b < n) :
    (occOf n A B).countP betaSym = B.length := by
  rw [occOf, List.countP_map, ← countP_range_mem n B hB hBlt]
  refine List.countP_congr fun i _ => ?_
  by_cases h1 : i ∈ A <;> by_cases h2 : i ∈ B <;>
    simp [h1, h2, betaSym, Function.comp]

end CiCombi

namespace CiCombi

/-! ## Weights -/

theorem charWeight_space : charWeight ' ' = 0 := by decide

theorem listWeight_nil : listWeight [] = 0 := rfl

theorem listWeight_cons (c : Char) (l : List Char) :
    listWeight (c :: l) = charWeight c + listWeight l := by
  simp [listWeight]

theorem listWeight_append (l₁ l₂ : List Char) :
    listWeight (l₁ ++ l₂) = listWeight l₁ + listWeight l₂ := by
  simp [listWeight]

theorem listWeight_joinSpace (parts : List (List Char)) :
    listWeight (joinSpace parts) = (parts.map listWeight).sum := by
  induction parts with
  | nil => rfl
  | cons p rest ih =>
    cases rest with
    | nil => simp [joinSpace, listWeight]
    | cons q t =>
      rw [joinSpace, List.map_cons, List.sum_cons, ← ih, listWeight_append,
        listWeight_cons, charWeight_space, Nat.zero_add]

theorem listWeight_join (parts : List (List Char)) :
    listWeight parts.flatten = (parts.map listWeight).sum := by
  induction parts with
  | nil => rfl
  | cons p rest ih => rw [List.flatten_cons, listWeight_append, List.map_cons, List.sum_cons, ih]

theorem listWeight_eq_counts (d : List Char)
    (h : ∀ c ∈ d, c = '0' ∨ c = 'a' ∨ c = 'b' ∨ c = '2') :
    listWeight d = d.countP alphaSym + d.countP betaSym := by
  induction d with
  | nil => rfl
  | cons c t ih =>
    have ht := ih fun x hx => h x (List.mem_cons_of_mem c hx)
    rcases h c (List.mem_cons_self c t) with hc | hc | hc | hc <;> subst hc <;>
      rw [listWeight_cons, List.countP_cons, List.countP_cons, ht] <;>
      simp [alphaSym, betaSym, charWeight] <;> omega

/-! ## Chunks and formatting -/

theorem chunksBy_join (cs : List Nat) (d : List Char) :
    (chunksBy cs d).flatten = d.take cs.sum := by
  induction cs generalizing d with
  | nil => simp [chunksBy]
  | cons c cs ih => rw [chunksBy, List.flatten_cons, ih, List.sum_cons, List.take_add]

theorem chunksBy_join_of_length (cs : List Nat) (d : List Char)
    (h : d.length = cs.sum) : (chunksBy cs d).flatten = d := by
  rw [chunksBy_join, ← h, List.take_length]

theorem chunksBy_lengths (cs : List Nat) (d : List Char) (h : cs.sum ≤ d.length) :
    (chunksBy cs d).map List.length = cs := by
  induction cs generalizing d with
  | nil => rfl
  | cons c cs ih =>
    rw [List.sum_cons] at h
    rw [chunksBy, List.map_cons, List.length_take, ih (d.drop c) (by rw [List.length_drop]; omega)]
    congr 1
    omega

theorem chunksBy_mem_subset (cs : List Nat) (d : List Char) :
    ∀ grp ∈ chunksBy cs d, ∀ c ∈ grp, c ∈ d := by
  induction cs generalizing d with
  | nil => intro grp hgrp; simp [chunksBy] at hgrp
  | cons c cs ih =>
    intro grp hgrp x hx
    rw [chunksBy, List.mem_cons] at hgrp
    rcases hgrp with hgrp | hgrp
    · exact (List.take_sublist c d).subset (hgrp ▸ hx)
    · exact (List.drop_sublist c d).subset (ih (d.drop c) grp hgrp x hx)

theorem filter_joinSpace (parts : List (List Char))
    (h : ∀ p ∈ parts, ∀ c ∈ p, ¬ c = ' ') :
    (joinSpace parts).filter (fun c => !(c == ' ')) = parts.flatten := by
  induction parts with
  | nil => rfl
  | cons p rest ih =>
    have hp : p.filter (fun c => !(c == ' ')) = p :=
      List.filter_eq_self.mpr fun c hc => by
        simpa using h p (List.mem_cons_self p rest) c hc
    cases rest with
    | nil => simp [joinSpace, hp]
    | cons q t =>
      have ht := ih fun x hx => h x (List.mem_cons_of_mem p hx)
      have hsp : ¬ ((!((' ' : Char) == ' ')) = true) := by decide
      rw [joinSpace, List.filter_append, hp, List.flatten_cons, List.filter_cons,
        if_neg hsp, ht, List.flatten_cons]

theorem irrepPositions_slices (specs : List (String × Nat)) (pos : Nat) (d : List Char) :
    (irrepPositionsAux pos specs).map (fun se => (d.drop se.1).take (se.2 - se.1)) =
      chunksBy (specs.map Prod.snd) (d.drop pos) := by
  induction specs generalizing pos with
  | nil => rfl
  | cons p rest ih =>
    rw [irrepPositionsAux, List.map_cons, List.map_cons, chunksBy, ih (pos + p.2),
      Nat.add_sub_cancel_left, List.drop_drop]

theorem format_data (t f : Int) (specs : List (String × Nat)) (d : List Char) :
    ((ConfigurationGenerator.init t f specs).format_configuration d).data =
      joinSpace (chunksBy (specs.map Prod.snd) d) := by
  show joinSpace _ = _
  rw [ConfigurationGenerator.init]
  rw [irrepPositions_slices specs 0 d, List.drop_zero]

end CiCombi

namespace CiCombi

/-! ## The accumulating result set -/

theorem mem_setInsert (s : List String) (x y : String) :
    y ∈ setInsert s x ↔ y ∈ s ∨ y = x := by
  rw [setInsert]
  by_cases h : x ∈ s
  · rw [if_pos h]
    exact ⟨Or.inl, fun hy => hy.elim id fun he => he ▸ h⟩
  · rw [if_neg h]
    simp [List.mem_append]

theorem setInsert_nodup (s : List String) (x : String) (h : s.Nodup) :
    (setInsert s x).Nodup := by
  rw [setInsert]
  by_cases hx : x ∈ s
  · rwa [if_pos hx]
  · rw [if_neg hx]
    simpa [List.nodup_append, h] using hx

theorem innerLoop_mem (g : ConfigurationGenerator) (A : List Nat) :
    ∀ (Bs : List (List Nat)) (acc : List String) (s : String),
      s ∈ innerLoop g A Bs acc ↔
        s ∈ acc ∨ ∃ B ∈ Bs, ∃ d, buildDist g.n_orbitals A B = some d ∧
          s = g.format_configuration d
  | [], acc, s => by simp [innerLoop]
  | B₀ :: rest, acc, s => by
    rcases hm : buildDist g.n_orbitals A B₀ with _ | d
    · rw [show innerLoop g A (B₀ :: rest) acc = innerLoop g A rest acc by
        rw [innerLoop, hm]]
      rw [innerLoop_mem g A rest acc s]
      constructor
      · rintro (h | ⟨B, hB, hd⟩)
        · exact Or.inl h
        · exact Or.inr ⟨B, List.mem_cons_of_mem B₀ hB, hd⟩
      · rintro (h | ⟨B, hB, d, hd, hs⟩)
        · exact Or.inl h
        · rcases List.mem_cons.mp hB with hB | hB
          · rw [hB] at hd
            rw [hd] at hm
            cases hm
          · exact Or.inr ⟨B, hB, d, hd, hs⟩
    · rw [show innerLoop g A (B₀ :: rest) acc =
          innerLoop g A rest (setInsert acc (g.format_configuration d)) by
        rw [innerLoop, hm]]
      rw [innerLoop_mem g A rest _ s, mem_setInsert]
      constructor
      · rintro ((h | h) | ⟨B, hB, hd⟩)
        · exact Or.inl h
        · exact Or.inr ⟨B₀, List.mem_cons_self B₀ rest, d, hm, h⟩
        · exact Or.inr ⟨B, List.mem_cons_of_mem B₀ hB, hd⟩
      · rintro (h | ⟨B, hB, d', hd', hs⟩)
        · exact Or.inl (Or.inl h)
        · rcases List.mem_cons.mp hB with hB | hB
          · rw [hB] at hd'
            rw [hd'] at hm
            cases hm
            exact Or.inl (Or.inr hs)
          · exact Or.inr ⟨B, hB, d', hd', hs⟩

theorem innerLoop_nodup (g : ConfigurationGenerator) (A : List Nat) :
    ∀ (Bs : List (List Nat)) (acc : List String), acc.Nodup →
      (innerLoop g A Bs acc).Nodup
  | [], _, h => h
  | B₀ :: rest, acc, h => by
    rcases hm : buildDist g.n_orbitals A B₀ with _ | d
    · rw [show innerLoop g A (B₀ :: rest) acc = innerLoop g A rest acc by
        rw [innerLoop, hm]]
      exact innerLoop_nodup g A rest acc h
    · rw [show innerLoop g A (B₀ :: rest) acc =
          innerLoop g A rest (setInsert acc (g.format_configuration d)) by
        rw [innerLoop, hm]]
      exact innerLoop_nodup g A rest _ (setInsert_nodup acc _ h)

theorem outerLoop_ok (g : ConfigurationGenerator) (Bs : List (List Nat))
    (hBs : combinationsI g.n_orbitals g.n_beta = Except.ok Bs) :
    ∀ (As : List (List Nat)) (acc : List String),
      ∃ r, outerLoop g As acc = Except.ok r ∧ (acc.Nodup → r.Nodup) ∧
        ∀ s, s ∈ r ↔ s ∈ acc ∨ ∃ A ∈ As, ∃ B ∈ Bs, ∃ d,
          buildDist g.n_orbitals A B = some d ∧ s = g.format_configuration d
  | [], acc => ⟨acc, rfl, fun h => h, fun s => by simp⟩
  | A₀ :: rest, acc => by
    obtain ⟨r, hr, hnd, hmem⟩ := outerLoop_ok g Bs hBs rest (innerLoop g A₀ Bs acc)
    refine ⟨r, ?_, ?_, ?_⟩
    · rw [outerLoop, hBs]
      exact hr
    · exact fun h => hnd (innerLoop_nodup g A₀ Bs acc h)
    · intro s
      rw [hmem s, innerLoop_mem g A₀ Bs acc s]
      constructor
      · rintro ((h | ⟨B, hB, hd⟩) | ⟨A, hA, hd⟩)
        · exact Or.inl h
        · exact Or.inr ⟨A₀, List.mem_cons_self A₀ rest, B, hB, hd⟩
        · exact Or.inr ⟨A, List.mem_cons_of_mem A₀ hA, hd⟩
      · rintro (h | ⟨A, hA, hd⟩)
        · exact Or.inl (Or.inl h)
        · rcases List.mem_cons.mp hA with hA | hA
          · exact Or.inl (Or.inr (hA ▸ hd))
          · exact Or.inr ⟨A, hA, hd⟩

end CiCombi

namespace CiCombi

/-! ## The enumerator characterized -/

/-- When the spin split is non-negative the enumeration succeeds, produces no
duplicates, and contains exactly the grouped renderings of the occupations
induced by the enumerated placement pairs. -/
theorem generate_configurations_ok (g : ConfigurationGenerator)
    (h : 0 ≤ g.n_alpha) :
    ∃ l, g.generate_configurations = Except.ok l ∧ l.Nodup ∧
      ∀ s, s ∈ l ↔ ∃ A ∈ combinations g.n_orbitals g.n_alpha.toNat,
        ∃ B ∈ combinations g.n_orbitals g.n_beta.toNat,
          s = g.format_configuration (occOf g.n_orbitals A B) := by
  have hb : 0 ≤ g.n_beta := n_beta_nonneg_of_n_alpha g h
  have hA : combinationsI g.n_orbitals g.n_alpha =
      Except.ok (combinations g.n_orbitals g.n_alpha.toNat) := by
    rw [combinationsI, if_neg (not_lt.mpr h)]
  have hB : combinationsI g.n_orbitals g.n_beta =
      Except.ok (combinations g.n_orbitals g.n_beta.toNat) := by
    rw [combinationsI, if_neg (not_lt.mpr hb)]
  obtain ⟨r, hr, hnd, hmem⟩ :=
    outerLoop_ok g (combinations g.n_orbitals g.n_beta.toNat) hB
      (combinations g.n_orbitals g.n_alpha.toNat) []
  refine ⟨r, ?_, hnd (List.nodup_nil), fun s => ?_⟩
  · rw [ConfigurationGenerator.generate_configurations,
      ConfigurationGenerator.generate_spin_distributions, hA]
    exact hr
  · rw [hmem s]
    simp only [List.not_mem_nil, false_or]
    constructor
    · rintro ⟨A, hA', B, hB', d, hd, hs⟩
      rw [buildDist_eq_occOf g.n_orbitals A B (mem_combinations_nodup hB')
        (mem_combinations_lt hB')] at hd
      cases hd
      exact ⟨A, hA', B, hB', hs⟩
    · rintro ⟨A, hA', B, hB', hs⟩
      exact ⟨A, hA', B, hB', occOf g.n_orbitals A B,
        buildDist_eq_occOf g.n_orbitals A B (mem_combinations_nodup hB')
          (mem_combinations_lt hB'), hs⟩

/-- A negative spin split makes the first `combinations` call raise. -/
theorem generate_configurations_error (g : ConfigurationGenerator)
    (h : g.n_alpha < 0) :
    g.generate_configurations = Except.error "r must be non-negative" := by
  rw [ConfigurationGenerator.generate_configurations,
    ConfigurationGenerator.generate_spin_distributions, combinationsI, if_pos h]
  rfl

/-- A successful enumeration forces a non-negative spin split. -/
theorem n_alpha_nonneg_of_ok (g : ConfigurationGenerator) (l : List String)
    (h : g.generate_configurations = Except.ok l) : 0 ≤ g.n_alpha := by
  by_contra hneg
  rw [generate_configurations_error g (lt_of_not_le hneg)] at h
  cases h

end CiCombi

namespace CiCombi

/-! ## Remaining helpers -/

theorem occOf_nil_nil (n : Nat) : occOf n [] [] = List.replicate n '0' := by
  refine List.ext_getElem? fun i => ?_
  rw [occOf_getElem?, List.getElem?_replicate]
  simp

theorem eq_singleton_of_nodup_mem_iff {α : Type} {l : List α} {x : α}
    (hnd : l.Nodup) (h : ∀ s, s ∈ l ↔ s = x) : l = [x] := by
  cases l with
  | nil => exact absurd ((h x).mpr rfl) (List.not_mem_nil x)
  | cons a tl =>
    obtain ⟨hx, hnd'⟩ := List.nodup_cons.mp hnd
    have ha : a = x := (h a).mp (List.mem_cons_self a tl)
    subst ha
    have htl : tl = [] := by
      rw [List.eq_nil_iff_forall_not_mem]
      intro b hb
      have hbx : b = a := (h b).mp (List.mem_cons_of_mem a hb)
      exact hx (hbx ▸ hb)
    rw [htl]

theorem chunksBy_replicate (cs : List Nat) (m : Nat) (h : cs.sum ≤ m) :
    chunksBy cs (List.replicate m '0') = cs.map fun c => List.replicate c '0' := by
  induction cs generalizing m with
  | nil => rfl
  | cons c cs ih =>
    rw [List.sum_cons] at h
    have hmin : c ⊓ m = c := Nat.min_eq_left (by omega)
    rw [chunksBy, List.take_replicate, hmin, List.drop_replicate, List.map_cons,
      ih (m - c) (by omega)]

/-! ## Claims -/

/-- C5: for every candidate pair of placements drawn from `combinations`, the
beta overlay succeeds — the defensive invalid-candidate branch is unreachable
and no candidate pair is discarded. -/
theorem claim_C5_no_candidate_discarded (n ra rb : Nat) (A B : List Nat)
    (hA : A ∈ combinations n ra) (hB : B ∈ combinations n rb) :
    (buildDist n A B).isSome = true := by
  rw [buildDist_eq_occOf n A B (mem_combinations_nodup hB) (mem_combinations_lt hB)]
  rfl

theorem claim_C5_no_candidate_discarded_witness :
    [0] ∈ combinations 2 1 ∧ [1] ∈ combinations 2 1 ∧
      (buildDist 2 [0] [1]).isSome = true :=
  ⟨by decide, by decide,
    claim_C5_no_candidate_discarded 2 1 1 [0] [1] (by decide) (by decide)⟩

/-- C8: the generator computes `n_alpha = active_electrons // 2` by floor
division and `n_beta = active_electrons - n_alpha`, so alpha receives the
floor half and `n_alpha ≤ n_beta` whenever the active count is odd. -/
theorem claim_C8_spin_split (t f : Int) (specs : List (String × Nat)) :
    (ConfigurationGenerator.init t f specs).n_alpha
        = (ConfigurationGenerator.init t f specs).active_electrons.fdiv 2 ∧
    (ConfigurationGenerator.init t f specs).n_beta
        = (ConfigurationGenerator.init t f specs).active_electrons
            - (ConfigurationGenerator.init t f specs).n_alpha ∧
    (Odd (ConfigurationGenerator.init t f specs).active_electrons →
      (ConfigurationGenerator.init t f specs).n_alpha
        ≤ (ConfigurationGenerator.init t f specs).n_beta) := by
  refine ⟨rfl, rfl, fun _ => ?_⟩
  rw [n_alpha_eq_ediv, n_beta_eq]
  omega

theorem claim_C8_spin_split_witness :
    Odd (ConfigurationGenerator.init 3 0 [("A", 2)]).active_electrons ∧
    (ConfigurationGenerator.init 3 0 [("A", 2)]).n_alpha
      ≤ (ConfigurationGenerator.init 3 0 [("A", 2)]).n_beta := by
  have hodd : Odd (ConfigurationGenerator.init 3 0 [("A", 2)]).active_electrons :=
    ⟨1, by norm_num [ConfigurationGenerator.init]⟩
  exact ⟨hodd, (claim_C8_spin_split 3 0 [("A", 2)]).2.2 hodd⟩

/-- C9: calling `generate_configurations()` leaves every stored field of the
instance unchanged, and a second call on the same instance returns the same
result. -/
theorem claim_C9_pure_computation (g : ConfigurationGenerator) :
    (g.generate_configurations_call.2.total_electrons = g.total_electrons ∧
     g.generate_configurations_call.2.frozen_core = g.frozen_core ∧
     g.generate_configurations_call.2.active_electrons = g.active_electrons ∧
     g.generate_configurations_call.2.irrep_specs = g.irrep_specs ∧
     g.generate_configurations_call.2.n_orbitals = g.n_orbitals ∧
     g.generate_configurations_call.2.irrep_positions = g.irrep_positions) ∧
    g.generate_configurations_call.2.generate_configurations_call.1 =
      g.generate_configurations_call.1 :=
  ⟨⟨rfl, rfl, rfl, rfl, rfl, rfl⟩, rfl⟩

/-- C10: when `frozen_core > total_electrons` the active count is negative,
the first `combinations` call receives a negative size, and the enumeration
raises instead of returning a set. -/
theorem claim_C10_negative_active_raises (t f : Int) (specs : List (String × Nat))
    (h : t < f) :
    ∃ msg, (ConfigurationGenerator.init t f specs).generate_configurations
      = Except.error msg := by
  refine ⟨"r must be non-negative", generate_configurations_error _ ?_⟩
  have hact : (ConfigurationGenerator.init t f specs).active_electrons = t - f := rfl
  rw [n_alpha_eq_ediv, hact]
  omega

theorem claim_C10_negative_active_raises_witness :
    (0 : Int) < 1 ∧
    ∃ msg, (ConfigurationGenerator.init 0 1 [("A", 1)]).generate_configurations
      = Except.error msg :=
  ⟨by norm_num, claim_C10_negative_active_raises 0 1 [("A", 1)] (by norm_num)⟩

end CiCombi

namespace CiCombi

/-- C4: two active electrons over a single irrep of two orbitals give exactly
`{"20","02","ab","ba"}`, and over two irreps of one orbital each give exactly
`{"2 0","0 2","a b","b a"}`. -/
theorem claim_C4_two_electron_scenarios :
    ((ConfigurationGenerator.init 2 0 [("A", 2)]).generate_configurations.toOption.getD
        []).Perm ["20", "02", "ab", "ba"] ∧
    ((ConfigurationGenerator.init 2 0
        [("A", 1), ("B", 1)]).generate_configurations.toOption.getD []).Perm
      ["2 0", "0 2", "a b", "b a"] := by
  constructor <;> decide

/-- C6: an alpha or beta count exceeding the orbital count makes the
corresponding `combinations` stream empty, so the enumeration returns the
empty set without failing. -/
theorem claim_C6_oversized_split_empty (t f : Int) (specs : List (String × Nat))
    (h : ((ConfigurationGenerator.init t f specs).n_orbitals : Int)
          < (ConfigurationGenerator.init t f specs).n_alpha ∨
         ((ConfigurationGenerator.init t f specs).n_orbitals : Int)
          < (ConfigurationGenerator.init t f specs).n_beta) :
    (ConfigurationGenerator.init t f specs).generate_configurations = Except.ok [] := by
  set g := ConfigurationGenerator.init t f specs with hg
  have hN : (0 : Int) ≤ (g.n_orbitals : Int) := Int.ofNat_nonneg _
  have hα : 0 ≤ g.n_alpha := by
    rw [n_alpha_eq_ediv]
    rcases h with h | h
    · rw [n_alpha_eq_ediv] at h
      omega
    · rw [n_beta_eq] at h
      omega
  obtain ⟨l, hl, _, hmem⟩ := generate_configurations_ok g hα
  have hempty : l = [] := by
    rw [List.eq_nil_iff_forall_not_mem]
    intro s hs
    rcases (hmem s).mp hs with ⟨A, hA', B, hB', _⟩
    rcases h with h | h
    · rw [combinations_eq_nil (show g.n_orbitals < g.n_alpha.toNat by omega)] at hA'
      exact absurd hA' (List.not_mem_nil A)
    · have hb : 0 ≤ g.n_beta := n_beta_nonneg_of_n_alpha g hα
      rw [combinations_eq_nil (show g.n_orbitals < g.n_beta.toNat by omega)] at hB'
      exact absurd hB' (List.not_mem_nil B)
  rw [hempty] at hl
  exact hl

theorem claim_C6_oversized_split_empty_witness :
    (((ConfigurationGenerator.init 6 0 [("A", 1)]).n_orbitals : Int)
        < (ConfigurationGenerator.init 6 0 [("A", 1)]).n_alpha ∨
     ((ConfigurationGenerator.init 6 0 [("A", 1)]).n_orbitals : Int)
        < (ConfigurationGenerator.init 6 0 [("A", 1)]).n_beta) ∧
    (ConfigurationGenerator.init 6 0 [("A", 1)]).generate_configurations
      = Except.ok [] :=
  ⟨Or.inl (by decide),
    claim_C6_oversized_split_empty 6 0 [("A", 1)] (Or.inl (by decide))⟩

/-- C7: with zero active electrons the only configuration is the all-`'0'`
string, grouped at the irrep boundaries. -/
theorem claim_C7_zero_active_single (t f : Int) (specs : List (String × Nat))
    (h : (ConfigurationGenerator.init t f specs).active_electrons = 0) :
    (ConfigurationGenerator.init t f specs).generate_configurations =
      Except.ok [(ConfigurationGenerator.init t f specs).format_configuration
        (List.replicate (ConfigurationGenerator.init t f specs).n_orbitals '0')] ∧
    ((ConfigurationGenerator.init t f specs).format_configuration
        (List.replicate (ConfigurationGenerator.init t f specs).n_orbitals '0')).data =
      joinSpace ((specs.map Prod.snd).map fun c => List.replicate c '0') := by
  set g := ConfigurationGenerator.init t f specs with hg
  have hα : g.n_alpha = 0 := by
    rw [ConfigurationGenerator.n_alpha, h, Int.zero_fdiv]
  have hβ : g.n_beta = 0 := by
    rw [ConfigurationGenerator.n_beta, h, hα, Int.sub_zero]
  constructor
  · obtain ⟨l, hl, hnd, hmem⟩ := generate_configurations_ok g (by rw [hα])
    have hsing : l = [g.format_configuration (List.replicate g.n_orbitals '0')] := by
      refine eq_singleton_of_nodup_mem_iff hnd fun s => ?_
      rw [hmem s]
      constructor
      · rintro ⟨A, hA', B, hB', hs⟩
        rw [hα, Int.toNat_zero, combinations_zero, List.mem_singleton] at hA'
        rw [hβ, Int.toNat_zero, combinations_zero, List.mem_singleton] at hB'
        subst hA'
        subst hB'
        rwa [occOf_nil_nil] at hs
      · intro hs
        refine ⟨[], ?_, [], ?_, ?_⟩
        · rw [hα, Int.toNat_zero, combinations_zero]
          exact List.mem_singleton.mpr rfl
        · rw [hβ, Int.toNat_zero, combinations_zero]
          exact List.mem_singleton.mpr rfl
        · rwa [occOf_nil_nil]
    rw [hsing] at hl
    exact hl
  · rw [hg, format_data, chunksBy_replicate]
    show (ConfigurationGenerator.init t f specs).n_orbitals
      ≤ (ConfigurationGenerator.init t f specs).n_orbitals
    exact le_refl _

theorem claim_C7_zero_active_single_witness :
    (ConfigurationGenerator.init 2 2 [("A", 2), ("B", 1)]).active_electrons = 0 ∧
    ((ConfigurationGenerator.init 2 2 [("A", 2), ("B", 1)]).generate_configurations =
      Except.ok [(ConfigurationGenerator.init 2 2 [("A", 2), ("B", 1)]).format_configuration
        (List.replicate (ConfigurationGenerator.init 2 2 [("A", 2), ("B", 1)]).n_orbitals '0')] ∧
    ((ConfigurationGenerator.init 2 2 [("A", 2), ("B", 1)]).format_configuration
        (List.replicate (ConfigurationGenerator.init 2 2 [("A", 2), ("B", 1)]).n_orbitals '0')).data =
      joinSpace (([("A", 2), ("B", 1)].map Prod.snd).map fun c => List.replicate c '0')) :=
  ⟨by decide, claim_C7_zero_active_single 2 2 [("A", 2), ("B", 1)] (by decide)⟩

end CiCombi

namespace CiCombi

/-- C1: with `0 ≤ n_alpha ≤ N` and `0 ≤ n_beta ≤ N`, the enumeration returns,
with no duplicate and no extra or missing string, exactly the grouped
renderings of the occupations reachable from an alpha placement of size
`n_alpha` and a beta placement of size `n_beta` drawn from the `N` orbital
indices. -/
theorem claim_C1_exact_enumeration (t f : Int) (specs : List (String × Nat))
    (h0a : 0 ≤ (ConfigurationGenerator.init t f specs).n_alpha)
    (h1a : (ConfigurationGenerator.init t f specs).n_alpha
      ≤ ((ConfigurationGenerator.init t f specs).n_orbitals : Int))
    (h0b : 0 ≤ (ConfigurationGenerator.init t f specs).n_beta)
    (h1b : (ConfigurationGenerator.init t f specs).n_beta
      ≤ ((ConfigurationGenerator.init t f specs).n_orbitals : Int)) :
    ∃ l, (ConfigurationGenerator.init t f specs).generate_configurations
        = Except.ok l ∧ l.Nodup ∧
      ∀ s, s ∈ l ↔ ∃ A B : List Nat, A.Nodup ∧ B.Nodup ∧
        (∀ a ∈ A, a < (ConfigurationGenerator.init t f specs).n_orbitals) ∧
        (∀ b ∈ B, b < (ConfigurationGenerator.init t f specs).n_orbitals) ∧
        (A.length : Int) = (ConfigurationGenerator.init t f specs).n_alpha ∧
        (B.length : Int) = (ConfigurationGenerator.init t f specs).n_beta ∧
        s = (ConfigurationGenerator.init t f specs).format_configuration
          (occOf (ConfigurationGenerator.init t f specs).n_orbitals A B) := by
  set g := ConfigurationGenerator.init t f specs with hg
  have h0b' : 0 ≤ g.n_beta := n_beta_nonneg_of_n_alpha g h0a
  obtain ⟨l, hl, hnd, hmem⟩ := generate_configurations_ok g h0a
  refine ⟨l, hl, hnd, fun s => ?_⟩
  rw [hmem s]
  constructor
  · rintro ⟨A, hA, B, hB, hs⟩
    refine ⟨A, B, mem_combinations_nodup hA, mem_combinations_nodup hB,
      mem_combinations_lt hA, mem_combinations_lt hB, ?_, ?_, hs⟩
    · rw [mem_combinations_length hA, Int.toNat_of_nonneg h0a]
    · rw [mem_combinations_length hB, Int.toNat_of_nonneg h0b']
  · rintro ⟨A, B, hAnd, hBnd, hAlt, hBlt, hAlen, hBlen, hs⟩
    refine ⟨(List.range g.n_orbitals).filter (fun i => decide (i ∈ A)), ?_,
            (List.range g.n_orbitals).filter (fun i => decide (i ∈ B)), ?_, ?_⟩
    · rw [mem_combinations]
      refine ⟨List.filter_sublist _, ?_⟩
      rw [← List.countP_eq_length_filter, countP_range_mem _ A hAnd hAlt]
      omega
    · rw [mem_combinations]
      refine ⟨List.filter_sublist _, ?_⟩
      rw [← List.countP_eq_length_filter, countP_range_mem _ B hBnd hBlt]
      omega
    · rw [hs]
      congr 1
      refine occOf_congr g.n_orbitals (fun i hi => ?_) (fun i hi => ?_) <;>
        simp [List.mem_filter, List.mem_range, hi]

theorem claim_C1_exact_enumeration_witness :
    (0 ≤ (ConfigurationGenerator.init 2 0 [("A", 2)]).n_alpha ∧
     (ConfigurationGenerator.init 2 0 [("A", 2)]).n_alpha
       ≤ ((ConfigurationGenerator.init 2 0 [("A", 2)]).n_orbitals : Int) ∧
     0 ≤ (ConfigurationGenerator.init 2 0 [("A", 2)]).n_beta ∧
     (ConfigurationGenerator.init 2 0 [("A", 2)]).n_beta
       ≤ ((ConfigurationGenerator.init 2 0 [("A", 2)]).n_orbitals : Int)) ∧
    (∃ l, (ConfigurationGenerator.init 2 0 [("A", 2)]).generate_configurations
        = Except.ok l ∧ l.Nodup ∧
      ∀ s, s ∈ l ↔ ∃ A B : List Nat, A.Nodup ∧ B.Nodup ∧
        (∀ a ∈ A, a < (ConfigurationGenerator.init 2 0 [("A", 2)]).n_orbitals) ∧
        (∀ b ∈ B, b < (ConfigurationGenerator.init 2 0 [("A", 2)]).n_orbitals) ∧
        (A.length : Int) = (ConfigurationGenerator.init 2 0 [("A", 2)]).n_alpha ∧
        (B.length : Int) = (ConfigurationGenerator.init 2 0 [("A", 2)]).n_beta ∧
        s = (ConfigurationGenerator.init 2 0 [("A", 2)]).format_configuration
          (occOf (ConfigurationGenerator.init 2 0 [("A", 2)]).n_orbitals A B)) :=
  ⟨⟨by decide, by decide, by decide, by decide⟩,
    claim_C1_exact_enumeration 2 0 [("A", 2)]
      (by decide) (by decide) (by decide) (by decide)⟩

end CiCombi

namespace CiCombi

/-- C2: for valid budgets, every produced configuration string has total
symbol weight (2 per `'2'`, 1 per `'a'` or `'b'`, 0 per `'0'`) exactly
`total_electrons - frozen_core`. -/
theorem claim_C2_weight_invariant (t f : Int) (specs : List (String × Nat))
    (ht : 0 ≤ t) (hf : 0 ≤ f) (hft : f ≤ t) (l : List String) (s : String)
    (hgen : (ConfigurationGenerator.init t f specs).generate_configurations
      = Except.ok l)
    (hs : s ∈ l) :
    (stringWeight s : Int) = t - f := by
  set g := ConfigurationGenerator.init t f specs with hg
  have hα : 0 ≤ g.n_alpha := n_alpha_nonneg_of_ok g l hgen
  have hβ : 0 ≤ g.n_beta := n_beta_nonneg_of_n_alpha g hα
  obtain ⟨l', hl', _, hmem⟩ := generate_configurations_ok g hα
  rw [hgen] at hl'
  obtain rfl : l = l' := by injection hl'
  obtain ⟨A, hA, B, hB, hs'⟩ := (hmem s).mp hs
  have hsum : ((specs.map Prod.snd).sum : Nat) = g.n_orbitals := rfl
  have hocc_len : (occOf g.n_orbitals A B).length = (specs.map Prod.snd).sum := by
    rw [occOf_length, hsum]
  have hdata : s.data = joinSpace (chunksBy (specs.map Prod.snd)
      (occOf g.n_orbitals A B)) := by
    rw [hs', hg, format_data]
  have hw : stringWeight s = listWeight (occOf g.n_orbitals A B) := by
    rw [stringWeight, hdata, listWeight_joinSpace, ← listWeight_join,
      chunksBy_join_of_length _ _ hocc_len]
  have hcounts : listWeight (occOf g.n_orbitals A B)
      = A.length + B.length := by
    rw [listWeight_eq_counts _ (occOf_mem_alphabet g.n_orbitals A B),
      countP_alphaSym_occOf g.n_orbitals A B (mem_combinations_nodup hA)
        (mem_combinations_lt hA),
      countP_betaSym_occOf g.n_orbitals A B (mem_combinations_nodup hB)
        (mem_combinations_lt hB)]
  have hAlen := mem_combinations_length hA
  have hBlen := mem_combinations_length hB
  have hact : g.active_electrons = t - f := rfl
  have hnb : g.n_beta = g.active_electrons - g.n_alpha := rfl
  rw [hw, hcounts, hAlen, hBlen]
  omega

theorem claim_C2_weight_invariant_witness :
    (0 : Int) ≤ 2 ∧ (0 : Int) ≤ 0 ∧ (0 : Int) ≤ 2 ∧
    (ConfigurationGenerator.init 2 0 [("A", 2)]).generate_configurations
      = Except.ok ["02", "ba", "ab", "20"] ∧
    "02" ∈ ["02", "ba", "ab", "20"] ∧
    (stringWeight "02" : Int) = 2 - 0 :=
  ⟨by norm_num, by norm_num, by norm_num, rfl, by decide,
    claim_C2_weight_invariant 2 0 [("A", 2)] (by norm_num) (by norm_num)
      (by norm_num) ["02", "ba", "ab", "20"] "02" rfl (by decide)⟩

end CiCombi

namespace CiCombi

/-- C3 counterexample: with an irrep of count 0 the claim fails — the single
returned configuration is `" 0"`, which begins with a space (a leading
separator) and whose group decomposition contains an empty group, so not every
group matches `[0ab2]+`. -/
theorem claim_C3_counterexample :
    (ConfigurationGenerator.init 0 0 [("A", 0), ("B", 1)]).generate_configurations
        = Except.ok [" 0"] ∧
    (" 0" : String).data.head? = some ' ' ∧
    ([] : List Char) ∈ chunksBy ([("A", 0), ("B", 1)].map Prod.snd)
      ((" 0" : String).data.filter (fun c => !(c == ' '))) :=
  ⟨rfl, rfl, by decide⟩

/-- C3 as amended: when every irrep count is positive, every returned string
despaces to exactly `N` symbols over `{0,a,b,2}`, splits at the cumulative
irrep boundaries into space-joined groups whose lengths match the supplied
counts in order, and every group is non-empty. -/
theorem claim_C3_grouping (t f : Int) (specs : List (String × Nat))
    (hpos : ∀ p ∈ specs, 0 < p.2) (l : List String) (s : String)
    (hgen : (ConfigurationGenerator.init t f specs).generate_configurations
      = Except.ok l)
    (hs : s ∈ l) :
    ∃ d : List Char,
      d.length = (ConfigurationGenerator.init t f specs).n_orbitals ∧
      (∀ c ∈ d, c = '0' ∨ c = 'a' ∨ c = 'b' ∨ c = '2') ∧
      s.data = joinSpace (chunksBy (specs.map Prod.snd) d) ∧
      (chunksBy (specs.map Prod.snd) d).map List.length = specs.map Prod.snd ∧
      (∀ grp ∈ chunksBy (specs.map Prod.snd) d, grp ≠ []) ∧
      s.data.filter (fun c => !(c == ' ')) = d := by
  set g := ConfigurationGenerator.init t f specs with hg
  have hα : 0 ≤ g.n_alpha := n_alpha_nonneg_of_ok g l hgen
  obtain ⟨l', hl', _, hmem⟩ := generate_configurations_ok g hα
  rw [hgen] at hl'
  obtain rfl : l = l' := by injection hl'
  obtain ⟨A, hA, B, hB, hs'⟩ := (hmem s).mp hs
  refine ⟨occOf g.n_orbitals A B, occOf_length _ _ _, occOf_mem_alphabet _ _ _, ?_, ?_, ?_, ?_⟩
  · rw [hs', hg, format_data]
  · refine chunksBy_lengths _ _ ?_
    rw [occOf_length]
    exact le_refl _
  · intro grp hgrp
    have hlen : grp.length ∈ specs.map Prod.snd := by
      rw [← chunksBy_lengths (specs.map Prod.snd) (occOf g.n_orbitals A B)
        (by rw [occOf_length]; exact le_refl _)]
      exact List.mem_map_of_mem List.length hgrp
    obtain ⟨p, hp, hpe⟩ := List.mem_map.mp hlen
    have hppos : 0 < grp.length := hpe ▸ hpos p hp
    exact List.ne_nil_of_length_pos hppos
  · have hnospace : ∀ grp ∈ chunksBy (specs.map Prod.snd) (occOf g.n_orbitals A B),
        ∀ c ∈ grp, ¬ c = ' ' := by
      intro grp hgrp c hc
      rcases occOf_mem_alphabet g.n_orbitals A B c
        (chunksBy_mem_subset _ _ grp hgrp c hc) with h | h | h | h <;>
        (rw [h]; decide)
    rw [hs', hg, format_data, filter_joinSpace _ hnospace,
      chunksBy_join_of_length _ _ (by rw [occOf_length]; rfl)]

theorem claim_C3_grouping_witness :
    (∀ p ∈ [("A", 2)], 0 < (p : String × Nat).2) ∧
    (ConfigurationGenerator.init 2 0 [("A", 2)]).generate_configurations
      = Except.ok ["02", "ba", "ab", "20"] ∧
    "02" ∈ ["02", "ba", "ab", "20"] ∧
    (∃ d : List Char,
      d.length = (ConfigurationGenerator.init 2 0 [("A", 2)]).n_orbitals ∧
      (∀ c ∈ d, c = '0' ∨ c = 'a' ∨ c = 'b' ∨ c = '2') ∧
      ("02" : String).data = joinSpace (chunksBy ([("A", 2)].map Prod.snd) d) ∧
      (chunksBy ([("A", 2)].map Prod.snd) d).map List.length = [("A", 2)].map Prod.snd ∧
      (∀ grp ∈ chunksBy ([("A", 2)].map Prod.snd) d, grp ≠ []) ∧
      ("02" : String).data.filter (fun c => !(c == ' ')) = d) :=
  ⟨by decide, rfl, by decide,
    claim_C3_grouping 2 0 [("A", 2)] (by decide) ["02", "ba", "ab", "20"] "02"
      rfl (by decide)⟩

end CiCombi
